import Mathlib

/-!
Verification of the weight-processing and chain-commit engine of
`affine/src/validator/weight_setter.py`.

Weights are modelled as rationals (`ℚ`): the Python code computes with
IEEE doubles, but every claim under study is about exact arithmetic
identities (normalization to 1, burn redistribution), so the rational
model is the faithful idealization.  Dictionary iteration follows
insertion order in Python, so the input map is modelled as an ordered
association list.
-/

deriving instance DecidableEq for Except

namespace AffineCortex

/-- Errors raised by `WeightSetter.process_weights` (Python class
`WeightProcessingError`): an out-of-range burn percentage (lines 86-89)
or a non-positive normalization total (lines 112-113). -/
inductive WeightError
  | invalidBurn (bp : ℚ)
  | nonPositiveTotal
deriving DecidableEq

/-- Accumulate decimal digits, failing on any non-digit character.
Models the digit scan inside Python `int(string)`. -/
def digitsVal : List Char → Nat → Option Nat
  | [], acc => some acc
  | c :: cs, acc =>
      if c.isDigit then digitsVal cs (10 * acc + (c.toNat - 48)) else none

/-- A non-empty all-digit string parsed to a natural number. -/
def parseDigits : List Char → Option Nat
  | [] => none
  | cs => digitsVal cs 0

/-- Python `int(uid_str)` (line 94) on its core domain: an optional
sign character followed by one or more decimal digits; anything else
raises `ValueError`, modelled as `none`. -/
def pyInt (s : String) : Option Int :=
  match s.data with
  | '-' :: cs => (parseDigits cs).map (fun n => -(n : Int))
  | '+' :: cs => (parseDigits cs).map (fun n => (n : Int))
  | cs => (parseDigits cs).map (fun n => (n : Int))

/-- The raw API map: an ordered list of key strings paired with the
result of `float(weight_data.get("weight", 0.0))` (line 95) — `none`
when that conversion raises, `some w` when it yields the number `w`
(a missing `"weight"` field yields `some 0`). -/
abbrev ApiWeights := List (String × Option ℚ)

/-- The parse-and-filter loop of `process_weights` (lines 92-101):
keep an entry exactly when its key parses as an integer `uid`, its
weight parses, `uid >= 0` and `weight > 0`; all other entries are
skipped silently. -/
def parseEntries : ApiWeights → List (Int × ℚ)
  | [] => []
  | (k, w) :: rest =>
      match pyInt k, w with
      | some uid, some wt =>
          if 0 ≤ uid ∧ 0 < wt then (uid, wt) :: parseEntries rest
          else parseEntries rest
      | _, _ => parseEntries rest

/-- In-place addition `weights_array[i] += x` (line 125). -/
def bumpAt : List ℚ → Nat → ℚ → List ℚ
  | [], _, _ => []
  | a :: t, 0, x => (a + x) :: t
  | a :: t, i + 1, x => a :: bumpAt t i x

/-- Embedding of `WeightSetter.process_weights` (lines 53-130): validate the burn
percentage, parse and filter the entries, return `([], [])` when no
entry survives, normalize the surviving weights to sum 1, then apply
the burn: scale everything by `1 - burn` and give the burn fraction to
UID `0`, prepending `(0, burn)` when UID `0` is absent. -/
def process_weights (api : ApiWeights) (burn_percentage : ℚ) :
    Except WeightError (List Int × List ℚ) :=
  if burn_percentage < 0 ∨ 1 < burn_percentage then
    .error (.invalidBurn burn_percentage)
  else
    let entries := parseEntries api
    let uids := entries.map Prod.fst
    let weights := entries.map Prod.snd
    if uids = [] then .ok ([], [])
    else
      let total := weights.sum
      if total ≤ 0 then .error .nonPositiveTotal
      else
        let normalized := weights.map (· / total)
        if 0 < burn_percentage ∧ burn_percentage ≤ 1 then
          let scaled := normalized.map (· * (1 - burn_percentage))
          if 0 ∈ uids then
            .ok (uids, bumpAt scaled (uids.indexOf 0) burn_percentage)
          else
            .ok (0 :: uids, burn_percentage :: scaled)
        else
          .ok (uids, normalized)

/-- Outcome of one `subtensor.set_weights` call inside the retry loop
(lines 190-197): the call returns `True`, returns `False`, raises a
network-class exception (`NetworkError`/`ConnectionError`/
`TimeoutError`, line 212), or raises any other exception (line 224). -/
inductive AttemptResult
  | success
  | rejected
  | netError
  | fatalError
deriving DecidableEq

/-- Terminal outcome of the retry loop of `set_weights`:
return `True` (line 201), return `False` after a final rejection
(line 210), raise `WeightSettingError` with the network message
(lines 221-223), raise `WeightSettingError` with the generic message
(lines 236-238), or fall through a zero-iteration loop (line 245). -/
inductive CommitOutcome
  | ok
  | rejectedAll
  | netExhausted
  | errExhausted
  | noAttempts
deriving DecidableEq

/-- Observable result of one run of the retry loop: its terminal
outcome, the number of `subtensor.set_weights` calls made, and the
number of `asyncio.sleep(60)` backoff delays performed. -/
structure LoopResult where
  outcome : CommitOutcome
  calls : Nat
  sleeps : Nat
deriving DecidableEq

/-- The retry loop of `WeightSetter.set_weights` (lines 183-238),
driven by the list of per-attempt call results (one entry per loop
iteration, so the list length is `max_retries`).  A successful call
returns at once; on a rejection or any exception the loop sleeps and
retries unless this was the final attempt, in which case it returns
`False` (rejection), or raises `WeightSettingError` (exceptions) —
network-class and other exceptions differ only in the message. -/
def commitLoop : List AttemptResult → LoopResult
  | [] => ⟨.noAttempts, 0, 0⟩
  | [r] =>
      match r with
      | .success => ⟨.ok, 1, 0⟩
      | .rejected => ⟨.rejectedAll, 1, 0⟩
      | .netError => ⟨.netExhausted, 1, 0⟩
      | .fatalError => ⟨.errExhausted, 1, 0⟩
  | r :: r₂ :: rest =>
      match r with
      | .success => ⟨.ok, 1, 0⟩
      | _ =>
          let t := commitLoop (r₂ :: rest)
          ⟨t.outcome, t.calls + 1, t.sleeps + 1⟩

/-- Result of `WeightSetter.set_weights` (lines 132-245): a propagated
`WeightProcessingError`, the early `return False` when no valid
weights exist (lines 167-169), or the retry loop's result. -/
inductive SetWeightsResult
  | procError (e : WeightError)
  | noValidWeights
  | ran (r : LoopResult)
deriving DecidableEq

/-- Embedding of `WeightSetter.set_weights`: process the weights (propagating
processing errors), return without any submission when the uid list is
empty, otherwise run the retry loop.  `attempts` is the oracle of
per-attempt ledger-call results, of length `max_retries`. -/
def set_weights (api : ApiWeights) (burn_percentage : ℚ)
    (attempts : List AttemptResult) : SetWeightsResult :=
  match process_weights api burn_percentage with
  | .error e => .procError e
  | .ok (uids, _) =>
      if uids = [] then .noValidWeights else .ran (commitLoop attempts)

/-! ### Structural lemmas about the embedding -/

/-- Every entry surviving the filter has a non-negative uid and a
positive weight. -/
lemma parseEntries_mem (api : ApiWeights) :
    ∀ p ∈ parseEntries api, 0 ≤ p.1 ∧ 0 < p.2 := by
  induction api with
  | nil => intro p hp; simp [parseEntries] at hp
  | cons e rest ih =>
      obtain ⟨k, w⟩ := e
      intro p hp
      simp only [parseEntries] at hp
      cases hk : pyInt k with
      | none => rw [hk] at hp; exact ih p hp
      | some uid =>
          rw [hk] at hp
          cases hw : w with
          | none => rw [hw] at hp; exact ih p hp
          | some wt =>
              rw [hw] at hp
              dsimp only at hp
              by_cases hc : 0 ≤ uid ∧ 0 < wt
              · rw [if_pos hc] at hp
                rcases List.mem_cons.1 hp with h | h
                · subst h; exact hc
                · exact ih p h
              · rw [if_neg hc] at hp; exact ih p hp

lemma sum_map_div (l : List ℚ) (t : ℚ) :
    (l.map (· / t)).sum = l.sum / t := by
  induction l with
  | nil => simp
  | cons a l ih => simp [add_div, ih]

lemma sum_map_mul (l : List ℚ) (c : ℚ) :
    (l.map (· * c)).sum = l.sum * c := by
  induction l with
  | nil => simp
  | cons a l ih => simp [add_mul, ih]

lemma bumpAt_length (l : List ℚ) (i : Nat) (x : ℚ) :
    (bumpAt l i x).length = l.length := by
  induction l generalizing i with
  | nil => simp [bumpAt]
  | cons a t ih =>
      cases i with
      | zero => simp [bumpAt]
      | succ j => simp [bumpAt, ih]

lemma bumpAt_sum (l : List ℚ) (i : Nat) (x : ℚ) (h : i < l.length) :
    (bumpAt l i x).sum = l.sum + x := by
  induction l generalizing i with
  | nil => simp at h
  | cons a t ih =>
      cases i with
      | zero => simp [bumpAt]; ring
      | succ j =>
          simp only [bumpAt, List.sum_cons]
          rw [ih j (by simpa using h)]
          ring

lemma bumpAt_nonneg (l : List ℚ) (i : Nat) (x : ℚ) (hx : 0 ≤ x)
    (hl : ∀ a ∈ l, 0 ≤ a) : ∀ a ∈ bumpAt l i x, 0 ≤ a := by
  induction l generalizing i with
  | nil => intro a ha; simp [bumpAt] at ha
  | cons b t ih =>
      intro a ha
      cases i with
      | zero =>
          simp only [bumpAt, List.mem_cons] at ha
          rcases ha with rfl | ha
          · exact add_nonneg (hl b (by simp)) hx
          · exact hl a (List.mem_cons_of_mem _ ha)
      | succ j =>
          simp only [bumpAt, List.mem_cons] at ha
          rcases ha with rfl | ha
          · exact hl a (by simp)
          · exact ih j (fun c hc => hl c (List.mem_cons_of_mem _ hc)) a ha

/-- Case analysis on a successful run of `process_weights`: the burn
percentage was in range, and the output is one of the four shapes the
code can produce (empty, no-burn, burn with uid 0 present, burn with
uid 0 prepended). -/
lemma process_ok_cases {api : ApiWeights} {bp : ℚ} {us : List Int}
    {ss : List ℚ} (h : process_weights api bp = .ok (us, ss)) :
    (0 ≤ bp ∧ bp ≤ 1) ∧
    ((parseEntries api = [] ∧ us = [] ∧ ss = []) ∨
      (parseEntries api ≠ [] ∧ ¬(0 < bp ∧ bp ≤ 1) ∧
        us = (parseEntries api).map Prod.fst ∧
        ss = ((parseEntries api).map Prod.snd).map
          (· / ((parseEntries api).map Prod.snd).sum)) ∨
      (parseEntries api ≠ [] ∧ (0 < bp ∧ bp ≤ 1) ∧
        0 ∈ (parseEntries api).map Prod.fst ∧
        us = (parseEntries api).map Prod.fst ∧
        ss = bumpAt
          ((((parseEntries api).map Prod.snd).map
            (· / ((parseEntries api).map Prod.snd).sum)).map
            (· * (1 - bp)))
          (((parseEntries api).map Prod.fst).indexOf 0) bp) ∨
      (parseEntries api ≠ [] ∧ (0 < bp ∧ bp ≤ 1) ∧
        0 ∉ (parseEntries api).map Prod.fst ∧
        us = 0 :: (parseEntries api).map Prod.fst ∧
        ss = bp :: (((parseEntries api).map Prod.snd).map
          (· / ((parseEntries api).map Prod.snd).sum)).map
          (· * (1 - bp)))) := by
  unfold process_weights at h
  split at h
  · exact absurd h (by simp)
  · next hbp =>
      push_neg at hbp
      refine ⟨⟨hbp.1, hbp.2⟩, ?_⟩
      simp only at h
      split at h
      · next hempty =>
          obtain ⟨h1, h2⟩ := Prod.mk.injEq .. ▸ Except.ok.injEq .. ▸ h
          exact Or.inl ⟨by simpa using hempty, h1.symm, h2.symm⟩
      · next hne =>
          have hne' : parseEntries api ≠ [] := by
            intro hc; exact hne (by simp [hc])
          split at h
          · exact absurd h (by simp)
          · split at h
            · next hburn =>
                split at h
                · next hmem =>
                    obtain ⟨h1, h2⟩ :=
                      Prod.mk.injEq .. ▸ Except.ok.injEq .. ▸ h
                    exact Or.inr (Or.inr (Or.inl
                      ⟨hne', hburn, hmem, h1.symm, h2.symm⟩))
                · next hmem =>
                    obtain ⟨h1, h2⟩ :=
                      Prod.mk.injEq .. ▸ Except.ok.injEq .. ▸ h
                    exact Or.inr (Or.inr (Or.inr
                      ⟨hne', hburn, hmem, h1.symm, h2.symm⟩))
            · next hburn =>
                obtain ⟨h1, h2⟩ := Prod.mk.injEq .. ▸ Except.ok.injEq .. ▸ h
                exact Or.inr (Or.inl ⟨hne', hburn, h1.symm, h2.symm⟩)

/-- Entries whose weight field is missing-or-non-positive all get
filtered out. -/
lemma parseEntries_eq_nil_of_nonpos (api : ApiWeights)
    (h : ∀ p ∈ api, ∀ q : ℚ, p.2 = some q → q ≤ 0) :
    parseEntries api = [] := by
  induction api with
  | nil => rfl
  | cons e rest ih =>
      obtain ⟨k, w⟩ := e
      have hrest := ih fun p hp q hq => h p (List.mem_cons_of_mem _ hp) q hq
      simp only [parseEntries]
      cases hk : pyInt k with
      | none => exact hrest
      | some uid =>
          cases hw : w with
          | none => exact hrest
          | some wt =>
              have hle : wt ≤ 0 := h (k, w) (by simp) wt (by simp [hw])
              dsimp only
              rw [if_neg fun hc => absurd hc.2 (not_lt.2 hle)]
              exact hrest

/-- Entries whose key parses to a negative integer all get filtered
out. -/
lemma parseEntries_eq_nil_of_neg (api : ApiWeights)
    (h : ∀ p ∈ api, ∀ u : ℤ, pyInt p.1 = some u → u < 0) :
    parseEntries api = [] := by
  induction api with
  | nil => rfl
  | cons e rest ih =>
      obtain ⟨k, w⟩ := e
      have hrest := ih fun p hp u hu => h p (List.mem_cons_of_mem _ hp) u hu
      simp only [parseEntries]
      cases hk : pyInt k with
      | none => exact hrest
      | some uid =>
          have hneg : uid < 0 := h (k, w) (by simp) uid hk
          cases hw : w with
          | none => exact hrest
          | some wt =>
              dsimp only
              rw [if_neg fun hc => absurd hneg (not_lt.2 hc.1)]
              exact hrest

/-- When no entry survives the filter, `process_weights` returns the
empty pair for any in-range burn percentage. -/
lemma process_weights_of_nil (api : ApiWeights) (bp : ℚ)
    (hbp : 0 ≤ bp ∧ bp ≤ 1) (h : parseEntries api = []) :
    process_weights api bp = .ok ([], []) := by
  unfold process_weights
  rw [if_neg (not_or.2 ⟨not_lt.2 hbp.1, not_lt.2 hbp.2⟩)]
  simp [h]

/-- The normalization total is positive whenever an entry survives. -/
lemma total_pos (api : ApiWeights) (h : parseEntries api ≠ []) :
    0 < ((parseEntries api).map Prod.snd).sum := by
  refine List.sum_pos _ (fun x hx => ?_) (by simpa using h)
  obtain ⟨p, hp, rfl⟩ := List.mem_map.1 hx
  exact (parseEntries_mem api p hp).2

/-- For an in-range burn percentage `process_weights` never raises:
the `total <= 0` branch is unreachable because surviving weights are
strictly positive. -/
lemma process_isOk (api : ApiWeights) (bp : ℚ) (hbp : 0 ≤ bp ∧ bp ≤ 1) :
    ∃ r, process_weights api bp = .ok r := by
  unfold process_weights
  rw [if_neg (not_or.2 ⟨not_lt.2 hbp.1, not_lt.2 hbp.2⟩)]
  dsimp only
  by_cases hnil : (parseEntries api).map Prod.fst = []
  · rw [if_pos hnil]; exact ⟨_, rfl⟩
  · rw [if_neg hnil]
    have hne : parseEntries api ≠ [] := fun hc => hnil (by simp [hc])
    rw [if_neg (not_le.2 (total_pos api hne))]
    by_cases hb : 0 < bp ∧ bp ≤ 1
    · rw [if_pos hb]
      by_cases hz : (0 : ℤ) ∈ (parseEntries api).map Prod.fst
      · rw [if_pos hz]; exact ⟨_, rfl⟩
      · rw [if_neg hz]; exact ⟨_, rfl⟩
    · rw [if_neg hb]; exact ⟨_, rfl⟩

/-- Every surviving uid is non-negative. -/
lemma uids_nonneg (api : ApiWeights) :
    ∀ u ∈ (parseEntries api).map Prod.fst, 0 ≤ u := by
  intro u hu
  obtain ⟨p, hp, rfl⟩ := List.mem_map.1 hu
  exact (parseEntries_mem api p hp).1

/-! ### Claim C10 -/

/-- C10: for every input map, a burn percentage outside the closed
interval [0, 1] makes `process_weights` raise `WeightProcessingError`
before examining any entry — the result is the invalid-burn error,
identical for every input map, and no output vector is produced. -/
theorem C10_invalid_burn (bp : ℚ) (h : bp < 0 ∨ 1 < bp) :
    ∀ api : ApiWeights,
      process_weights api bp = .error (.invalidBurn bp) := by
  intro api
  unfold process_weights
  rw [if_pos h]

/-- Witness for C10 at burn percentage 2 and a non-trivial input. -/
theorem C10_witness :
    ((2 : ℚ) < 0 ∨ 1 < (2 : ℚ)) ∧
      process_weights [("1", some 3)] 2 = .error (.invalidBurn 2) :=
  ⟨Or.inr (by norm_num),
    C10_invalid_burn 2 (Or.inr (by norm_num)) [("1", some 3)]⟩

/-! ### Claim C9 -/

/-- C9: for every input map that is empty or all of whose entries have
non-positive (or unparseable) weight, and any in-range burn
percentage, `process_weights` returns the empty output pair and raises
no exception. -/
theorem C9_empty_output (api : ApiWeights) (bp : ℚ)
    (hbp : 0 ≤ bp ∧ bp ≤ 1)
    (h : ∀ p ∈ api, ∀ q : ℚ, p.2 = some q → q ≤ 0) :
    process_weights api bp = .ok ([], []) :=
  process_weights_of_nil api bp hbp (parseEntries_eq_nil_of_nonpos api h)

/-- Witness for C9: one non-positive weight, one unparseable weight. -/
theorem C9_witness :
    ((0 : ℚ) ≤ 0 ∧ (0 : ℚ) ≤ 1) ∧
      (∀ p ∈ ([("1", some (-1)), ("2", none)] : ApiWeights),
        ∀ q : ℚ, p.2 = some q → q ≤ 0) ∧
      process_weights [("1", some (-1)), ("2", none)] 0 = .ok ([], []) := by
  refine ⟨⟨le_refl 0, by norm_num⟩, ?_, ?_⟩
  · intro p hp q hq
    rcases List.mem_cons.1 hp with rfl | hp
    · simp only [Option.some.injEq] at hq; linarith
    · rcases List.mem_cons.1 hp with rfl | hp
      · exact absurd hq (by simp)
      · simp at hp
  · refine C9_empty_output _ _ ⟨le_refl 0, by norm_num⟩ ?_
    intro p hp q hq
    rcases List.mem_cons.1 hp with rfl | hp
    · simp only [Option.some.injEq] at hq; linarith
    · rcases List.mem_cons.1 hp with rfl | hp
      · exact absurd hq (by simp)
      · simp at hp

/-! ### Claim C4 -/

/-- C4 counterexample: the system-only input `{"-5": {"weight": 4.0}}`
with burn 0 yields the empty pair, not `([0], [1.0])` — negative uids
are dropped by the filter, never folded into uid 0. -/
theorem C4_counterexample :
    process_weights [("-5", some 4)] 0 = .ok ([], []) ∧
      process_weights [("-5", some 4)] 0 ≠ .ok ([0], [1]) := by
  with_unfolding_all decide

/-- C4 amended: for every input map whose keys all parse to negative
(system) identifiers, `process_weights` with burn 0 returns the empty
pair `([], [])`: system entries are dropped entirely, so nothing — in
particular not identifier 0 — receives their weight. -/
theorem C4_amended (api : ApiWeights)
    (h : ∀ p ∈ api, ∀ u : ℤ, pyInt p.1 = some u → u < 0) :
    process_weights api 0 = .ok ([], []) :=
  process_weights_of_nil api 0 ⟨le_refl 0, by norm_num⟩
    (parseEntries_eq_nil_of_neg api h)

/-- Witness for C4 amended at the spec's system-only input. -/
theorem C4_witness :
    (∀ p ∈ ([("-5", some 4)] : ApiWeights), ∀ u : ℤ,
        pyInt p.1 = some u → u < 0) ∧
      process_weights [("-5", some 4)] 0 = .ok ([], []) := by
  have h : ∀ p ∈ ([("-5", some 4)] : ApiWeights), ∀ u : ℤ,
      pyInt p.1 = some u → u < 0 := by
    intro p hp u hu
    rcases List.mem_cons.1 hp with rfl | hp
    · have : pyInt "-5" = some (-5) := by with_unfolding_all decide
      rw [this] at hu
      simp only [Option.some.injEq] at hu
      omega
    · simp at hp
  exact ⟨h, C4_amended _ h⟩

/-! ### Claim C7 -/

/-- C7 counterexample: for the all-non-positive input
`{"1": {"weight": -1.0}}` with burn 0, `process_weights` returns the
empty "nothing to do" pair and raises no error at all — the
`WeightProcessingError` for a non-positive sum is unreachable because
the filter has already removed every non-positive weight. -/
theorem C7_counterexample :
    process_weights [("1", some (-1))] 0 = .ok ([], []) ∧
      ∀ e : WeightError, process_weights [("1", some (-1))] 0 ≠ .error e := by
  have h : process_weights [("1", some (-1))] 0 = .ok ([], []) := by
    with_unfolding_all decide
  exact ⟨h, fun e he => by rw [h] at he; exact Except.noConfusion he⟩

/-- C7 amended: when every entry of the input map has a non-positive
weight, `process_weights` returns the same empty result as the
nothing-to-do case, and `set_weights` then returns without performing
any submission attempt (the processing-failure branch for a
non-positive sum is unreachable). -/
theorem C7_amended (api : ApiWeights) (bp : ℚ)
    (attempts : List AttemptResult) (hbp : 0 ≤ bp ∧ bp ≤ 1)
    (h : ∀ p ∈ api, ∀ q : ℚ, p.2 = some q → q ≤ 0) :
    process_weights api bp = .ok ([], []) ∧
      set_weights api bp attempts = .noValidWeights := by
  have hp := process_weights_of_nil api bp hbp
    (parseEntries_eq_nil_of_nonpos api h)
  refine ⟨hp, ?_⟩
  unfold set_weights
  rw [hp]
  simp

/-- Witness for C7 amended: an all-non-positive input never reaches
the ledger, even with a success-ready attempt oracle. -/
theorem C7_witness :
    ((0 : ℚ) ≤ 0 ∧ (0 : ℚ) ≤ 1) ∧
      (∀ p ∈ ([("1", some (-1))] : ApiWeights), ∀ q : ℚ,
        p.2 = some q → q ≤ 0) ∧
      process_weights [("1", some (-1))] 0 = .ok ([], []) ∧
      set_weights [("1", some (-1))] 0 [.success] = .noValidWeights := by
  have h : ∀ p ∈ ([("1", some (-1))] : ApiWeights), ∀ q : ℚ,
      p.2 = some q → q ≤ 0 := by
    intro p hp q hq
    rcases List.mem_cons.1 hp with rfl | hp
    · simp only [Option.some.injEq] at hq; linarith
    · simp at hp
  have hbp : (0 : ℚ) ≤ 0 ∧ (0 : ℚ) ≤ 1 := ⟨le_refl 0, by norm_num⟩
  exact ⟨hbp, h, C7_amended _ _ [.success] hbp h⟩

/-- Every normalized share is non-negative. -/
lemma normalized_nonneg (api : ApiWeights) (hne : parseEntries api ≠ []) :
    ∀ s ∈ ((parseEntries api).map Prod.snd).map
      (· / ((parseEntries api).map Prod.snd).sum), 0 ≤ s := by
  intro s hs
  obtain ⟨w, hw, rfl⟩ := List.mem_map.1 hs
  obtain ⟨p, hp, rfl⟩ := List.mem_map.1 hw
  exact le_of_lt (div_pos (parseEntries_mem api p hp).2 (total_pos api hne))

/-! ### Claim C1 -/

/-- C1 counterexample: on the spec's scenario input the code does not
fold the system identifier's weight into the normalization: it returns
shares `[0.25, 0.5625, 0.1875]`, not the claimed
`[0.625, 0.28125, 0.09375]`. -/
theorem C1_counterexample :
    process_weights [("1", some 3), ("2", some 1), ("-5", some 4)] (1/4) =
        .ok ([0, 1, 2], [1/4, 9/16, 3/16]) ∧
      process_weights [("1", some 3), ("2", some 1), ("-5", some 4)] (1/4) ≠
        .ok ([0, 1, 2], [5/8, 9/32, 3/32]) := by
  with_unfolding_all decide

/-- C1 amended: for the input map
`{"1": {"weight": 3.0}, "2": {"weight": 1.0}, "-5": {"weight": 4.0}}`
with burn percentage 0.25, `process_weights` drops the negative
(system) identifier entirely before normalization, so it returns
identifiers `[0, 1, 2]` with shares `[0.25, 0.5625, 0.1875]`:
identifier 0 receives only the burn fraction 0.25, and identifiers 1
and 2 receive `(3/4)·0.75` and `(1/4)·0.75`. -/
theorem C1_amended :
    process_weights [("1", some 3), ("2", some 1), ("-5", some 4)] (1/4) =
      .ok ([0, 1, 2], [1/4, 9/16, 3/16]) := by
  with_unfolding_all decide

/-! ### Claim C5 -/

/-- C5 counterexample: the distinct dictionary keys `"1"` and `"+1"`
both parse to the integer 1, so the output identifier list `[1, 1]`
contains a duplicate — output identifiers are not unique for every
input map. -/
theorem C5_counterexample :
    process_weights [("1", some 1), ("+1", some 2)] 0 =
        .ok ([1, 1], [1/3, 2/3]) ∧
      ¬ ([1, 1] : List Int).Nodup := by
  constructor
  · with_unfolding_all decide
  · decide

/-- C5 amended: every identifier in a successful `process_weights`
output is non-negative, and the identifiers are unique (in particular
identifier 0 appears at most once) provided the surviving input keys
parse to pairwise distinct integers; duplicates can only arise from
distinct key strings denoting the same integer. -/
theorem C5_amended (api : ApiWeights) (bp : ℚ) (us : List Int)
    (ss : List ℚ) (h : process_weights api bp = .ok (us, ss)) :
    (∀ u ∈ us, 0 ≤ u) ∧
      (((parseEntries api).map Prod.fst).Nodup → us.Nodup) := by
  obtain ⟨hbp, hcases⟩ := process_ok_cases h
  rcases hcases with ⟨_, hus, _⟩ | ⟨_, _, hus, _⟩ | ⟨_, _, _, hus, _⟩ |
    ⟨_, _, hz, hus, _⟩
  · subst hus; exact ⟨by simp, fun _ => by simp⟩
  · subst hus; exact ⟨uids_nonneg api, id⟩
  · subst hus; exact ⟨uids_nonneg api, id⟩
  · subst hus
    refine ⟨?_, fun hnd => ?_⟩
    · intro u hu
      rcases List.mem_cons.1 hu with rfl | hu
      · exact le_refl 0
      · exact uids_nonneg api u hu
    · exact List.nodup_cons.2 ⟨hz, hnd⟩

/-- Witness for C5 amended at a one-entry input. -/
theorem C5_witness :
    process_weights [("1", some 1)] 0 = .ok ([1], [1]) ∧
      ((∀ u ∈ ([1] : List Int), 0 ≤ u) ∧
        (((parseEntries [("1", some 1)]).map Prod.fst).Nodup →
          ([1] : List Int).Nodup)) :=
  ⟨by with_unfolding_all decide,
    C5_amended [("1", some 1)] 0 [1] [1] (by with_unfolding_all decide)⟩

/-! ### Claim C6 -/

/-- C6: whenever `process_weights` succeeds with a non-empty output,
the shares sum to exactly 1 — hence certainly to 1 within the 1e-6
tolerance — and every individual share is non-negative. -/
theorem C6_shares (api : ApiWeights) (bp : ℚ) (us : List Int)
    (ss : List ℚ) (h : process_weights api bp = .ok (us, ss))
    (hne : us ≠ []) :
    ss.sum = 1 ∧ |ss.sum - 1| ≤ 1 / 1000000 ∧ ∀ s ∈ ss, 0 ≤ s := by
  obtain ⟨hbp, hcases⟩ := process_ok_cases h
  have key : ss.sum = 1 ∧ ∀ s ∈ ss, 0 ≤ s := by
    rcases hcases with ⟨_, hus, _⟩ | ⟨hne', hnb, hus, hss⟩ |
      ⟨hne', hb, hz, hus, hss⟩ | ⟨hne', hb, hz, hus, hss⟩
    · exact absurd hus hne
    · subst hss
      refine ⟨?_, normalized_nonneg api hne'⟩
      rw [sum_map_div]
      exact div_self (ne_of_gt (total_pos api hne'))
    · subst hss
      have hidx : ((parseEntries api).map Prod.fst).indexOf 0 <
          ((((parseEntries api).map Prod.snd).map
            (· / ((parseEntries api).map Prod.snd).sum)).map
            (· * (1 - bp))).length := by
        simp only [List.length_map]
        simpa using List.indexOf_lt_length.2 hz
      constructor
      · rw [bumpAt_sum _ _ _ hidx, sum_map_mul, sum_map_div,
          div_self (ne_of_gt (total_pos api hne')), one_mul]
        ring
      · refine bumpAt_nonneg _ _ _ (le_of_lt hb.1) ?_
        intro s hs
        obtain ⟨a, ha, rfl⟩ := List.mem_map.1 hs
        exact mul_nonneg (normalized_nonneg api hne' a ha)
          (by linarith [hb.2])
    · subst hss
      constructor
      · rw [List.sum_cons, sum_map_mul, sum_map_div,
          div_self (ne_of_gt (total_pos api hne')), one_mul]
        ring
      · intro s hs
        rcases List.mem_cons.1 hs with rfl | hs
        · exact le_of_lt hb.1
        · obtain ⟨a, ha, rfl⟩ := List.mem_map.1 hs
          exact mul_nonneg (normalized_nonneg api hne' a ha)
            (by linarith [hb.2])
  exact ⟨key.1, by rw [key.1]; norm_num, key.2⟩

/-- Witness for C6 at a two-entry input with zero burn. -/
theorem C6_witness :
    process_weights [("1", some 3), ("2", some 1)] 0 =
        .ok ([1, 2], [3/4, 1/4]) ∧
      (([1, 2] : List Int) ≠ []) ∧
      (([3/4, 1/4] : List ℚ).sum = 1 ∧
        |([3/4, 1/4] : List ℚ).sum - 1| ≤ 1 / 1000000 ∧
        ∀ s ∈ ([3/4, 1/4] : List ℚ), 0 ≤ s) :=
  ⟨by with_unfolding_all decide, by simp,
    C6_shares [("1", some 3), ("2", some 1)] 0 [1, 2] [3/4, 1/4]
      (by with_unfolding_all decide) (by simp)⟩

lemma bumpAt_get (l : List ℚ) (i : Nat) (x : ℚ) (j : Nat)
    (hj : j < (bumpAt l i x).length) (hj' : j < l.length) :
    (bumpAt l i x).get ⟨j, hj⟩ =
      if j = i then l.get ⟨j, hj'⟩ + x else l.get ⟨j, hj'⟩ := by
  induction l generalizing i j with
  | nil => simp at hj'
  | cons a t ih =>
      cases i with
      | zero =>
          cases j with
          | zero => simp [bumpAt]
          | succ m => simp [bumpAt]
      | succ n =>
          cases j with
          | zero => simp [bumpAt]
          | succ m =>
              have hm : m < (bumpAt t n x).length := by
                have h2 := hj
                simp only [bumpAt, List.length_cons] at h2
                omega
              have hm' : m < t.length := by
                simp only [List.length_cons] at hj'
                omega
              have hstep : (bumpAt (a :: t) (n + 1) x).get ⟨m + 1, hj⟩ =
                  (bumpAt t n x).get ⟨m, hm⟩ := rfl
              rw [hstep, ih n m hm hm']
              by_cases hmn : m = n
              · subst hmn
                rw [if_pos rfl, if_pos rfl]
                rfl
              · rw [if_neg hmn, if_neg (by omega : ¬ m + 1 = n + 1)]
                rfl

/-! ### Claim C3 -/

/-- C3 counterexample: with burn 1.0 and the input
`{"1": {"weight": 3.0}}`, the output is `([0, 1], [1.0, 0.0])` — the
surviving identifier 1 remains in the output with share 0 — not the
claimed exact pair `([0], [1.0])`. -/
theorem C3_counterexample :
    process_weights [("1", some 3)] 1 = .ok ([0, 1], [1, 0]) ∧
      process_weights [("1", some 3)] 1 ≠ .ok ([0], [1]) := by
  with_unfolding_all decide

/-- C3 amended: with burn percentage 1.0, either no entry survives the
filter and the output is `([], [])`, or `process_weights` succeeds
with shares summing to 1 in which every identifier other than 0
receives share 0 — all weight collapses onto identifier 0, but the
other surviving identifiers stay in the vector with zero shares. -/
theorem C3_amended (api : ApiWeights) :
    process_weights api 1 = .ok ([], []) ∨
      ∃ us ss, process_weights api 1 = .ok (us, ss) ∧ ss.sum = 1 ∧
        us.length = ss.length ∧
        ∀ j (h1 : j < us.length) (h2 : j < ss.length),
          us.get ⟨j, h1⟩ ≠ 0 → ss.get ⟨j, h2⟩ = 0 := by
  obtain ⟨⟨us, ss⟩, h⟩ := process_isOk api 1 ⟨by norm_num, le_refl 1⟩
  obtain ⟨hbp, hcases⟩ := process_ok_cases h
  rcases hcases with ⟨hnil, hus, hss⟩ | ⟨hne', hnb, hus, hss⟩ |
    ⟨hne', hb, hz, hus, hss⟩ | ⟨hne', hb, hz, hus, hss⟩
  · subst hus; subst hss; exact Or.inl h
  · exact absurd ⟨by norm_num, le_refl 1⟩ hnb
  · subst hus; subst hss
    have hzero : ∀ s ∈ (((parseEntries api).map Prod.snd).map
        (· / ((parseEntries api).map Prod.snd).sum)).map
        (· * (1 - (1 : ℚ))), s = 0 := by
      intro s hs
      obtain ⟨a, _, rfl⟩ := List.mem_map.1 hs
      simp
    have hidx : ((parseEntries api).map Prod.fst).indexOf 0 <
        ((((parseEntries api).map Prod.snd).map
          (· / ((parseEntries api).map Prod.snd).sum)).map
          (· * (1 - (1 : ℚ)))).length := by
      simp only [List.length_map]
      simpa using List.indexOf_lt_length.2 hz
    refine Or.inr ⟨_, _, h, ?_, ?_, ?_⟩
    · rw [bumpAt_sum _ _ _ hidx, sum_map_mul]
      ring
    · rw [bumpAt_length]
      simp
    · intro j h1 h2 hne0
      have hj' : j < ((((parseEntries api).map Prod.snd).map
          (· / ((parseEntries api).map Prod.snd).sum)).map
          (· * (1 - (1 : ℚ)))).length := by
        rwa [bumpAt_length] at h2
      rw [bumpAt_get _ _ _ _ h2 hj']
      have hji : j ≠ ((parseEntries api).map Prod.fst).indexOf 0 := by
        intro he
        apply hne0
        subst he
        exact List.indexOf_get (by simpa using List.indexOf_lt_length.2 hz)
      rw [if_neg hji]
      exact hzero _ (List.get_mem _ _ _)
  · subst hus; subst hss
    have hzero : ∀ s ∈ (((parseEntries api).map Prod.snd).map
        (· / ((parseEntries api).map Prod.snd).sum)).map
        (· * (1 - (1 : ℚ))), s = 0 := by
      intro s hs
      obtain ⟨a, _, rfl⟩ := List.mem_map.1 hs
      simp
    refine Or.inr ⟨_, _, h, ?_, ?_, ?_⟩
    · rw [List.sum_cons, sum_map_mul]
      ring
    · simp
    · intro j h1 h2 hne0
      cases j with
      | zero => exact absurd rfl hne0
      | succ m =>
          have hm : m < ((((parseEntries api).map Prod.snd).map
              (· / ((parseEntries api).map Prod.snd).sum)).map
              (· * (1 - (1 : ℚ)))).length := by
            simpa using h2
          have hstep : ((1 : ℚ) :: (((parseEntries api).map Prod.snd).map
              (· / ((parseEntries api).map Prod.snd).sum)).map
              (· * (1 - (1 : ℚ)))).get ⟨m + 1, h2⟩ =
              ((((parseEntries api).map Prod.snd).map
              (· / ((parseEntries api).map Prod.snd).sum)).map
              (· * (1 - (1 : ℚ)))).get ⟨m, hm⟩ := rfl
          rw [hstep]
          exact hzero _ (List.get_mem _ _ _)

/-- Witness instantiating C3 amended at a concrete input. -/
theorem C3_witness :
    process_weights [("1", some 3)] 1 = .ok ([], []) ∨
      ∃ us ss, process_weights [("1", some 3)] 1 = .ok (us, ss) ∧
        ss.sum = 1 ∧ us.length = ss.length ∧
        ∀ j (h1 : j < us.length) (h2 : j < ss.length),
          us.get ⟨j, h1⟩ ≠ 0 → ss.get ⟨j, h2⟩ = 0 :=
  C3_amended [("1", some 3)]

/-! ### Claim C2 -/

/-- Unfolding step for the retry loop on a non-final generic
exception. -/
lemma commitLoop_cons_fatal (r₂ : AttemptResult)
    (rest : List AttemptResult) :
    commitLoop (.fatalError :: r₂ :: rest) =
      ⟨(commitLoop (r₂ :: rest)).outcome,
        (commitLoop (r₂ :: rest)).calls + 1,
        (commitLoop (r₂ :: rest)).sleeps + 1⟩ := rfl

/-- Unfolding step for the retry loop on a non-final network-class
exception. -/
lemma commitLoop_cons_net (r₂ : AttemptResult)
    (rest : List AttemptResult) :
    commitLoop (.netError :: r₂ :: rest) =
      ⟨(commitLoop (r₂ :: rest)).outcome,
        (commitLoop (r₂ :: rest)).calls + 1,
        (commitLoop (r₂ :: rest)).sleeps + 1⟩ := rfl

/-- C2 counterexample: a non-retryable-class ("fatal", i.e. any
non-network) exception on the first of three attempts does not
terminate the commit: the loop sleeps once, retries, and the second
call even succeeds — so there were 2 submission calls and 1 backoff,
not 1 call, no backoff, and a failure. -/
theorem C2_counterexample :
    commitLoop [.fatalError, .success, .success] = ⟨.ok, 2, 1⟩ ∧
      (commitLoop [.fatalError, .success, .success]).calls ≠ 1 ∧
      (commitLoop [.fatalError, .success, .success]).sleeps ≠ 0 := by
  with_unfolding_all decide

/-- C2 amended: the code has no fatal-error short-circuit — a
non-network exception consumes retry budget exactly like a network
error.  When every one of the `n ≥ 1` attempts raises a non-network
exception, the loop makes all `n` submission calls with `n - 1`
backoff delays and only then fails, raising `WeightSettingError` with
the generic message (same exception class as retries-exhausted,
distinguishable only by message text). -/
theorem C2_amended (n : Nat) (h : 1 ≤ n) :
    commitLoop (List.replicate n .fatalError) =
      ⟨.errExhausted, n, n - 1⟩ := by
  induction n with
  | zero => exact absurd h (by omega)
  | succ m ih =>
      cases m with
      | zero => rfl
      | succ k =>
          have ih' := ih (Nat.succ_le_succ (Nat.zero_le k))
          rw [List.replicate_succ, List.replicate_succ,
            commitLoop_cons_fatal, ← List.replicate_succ, ih']
          simp

/-- Witness for C2 amended with a budget of three attempts. -/
theorem C2_witness :
    1 ≤ 3 ∧ commitLoop (List.replicate 3 .fatalError) =
      ⟨.errExhausted, 3, 3 - 1⟩ :=
  ⟨by omega, C2_amended 3 (by omega)⟩

/-! ### Claim C8 -/

/-- C8: when the submission call fails with a transient network-class
error on every one of the `n ≥ 1` budgeted attempts, the commit
terminates with the network-retries-exhausted failure, having made
exactly `n` submission calls (the recorded attempt count) and `n - 1`
backoff sleeps — no attempt beyond the budget. -/
theorem C8_net_exhausted (n : Nat) (h : 1 ≤ n) :
    commitLoop (List.replicate n .netError) =
      ⟨.netExhausted, n, n - 1⟩ := by
  induction n with
  | zero => exact absurd h (by omega)
  | succ m ih =>
      cases m with
      | zero => rfl
      | succ k =>
          have ih' := ih (Nat.succ_le_succ (Nat.zero_le k))
          rw [List.replicate_succ, List.replicate_succ,
            commitLoop_cons_net, ← List.replicate_succ, ih']
          simp

/-- Witness for C8 with the default budget of three attempts. -/
theorem C8_witness :
    1 ≤ 3 ∧ commitLoop (List.replicate 3 .netError) =
      ⟨.netExhausted, 3, 3 - 1⟩ :=
  ⟨by omega, C8_net_exhausted 3 (by omega)⟩

end AffineCortex
